import Mathlib

/-!
Verification of the European-option pricing engine (`src/bindings.cpp`).

The development shallowly embeds the C++ code over `ℝ`:

* `EuropeanOption` mirrors the `EuropeanOption` class (fields stored by the
  constructor with no validation), with its `payoff` member function.
* `BlackScholesModel.price` mirrors `BlackScholesModel::price`, with the
  normal CDF computed through the complementary error function `erfc`,
  which is embedded by its mathematical definition (the C++ code calls
  `std::erfc`).
* `MonteCarloModel.price` mirrors `MonteCarloModel::price`; the stream of
  standard-normal draws produced by the generator during the call is an
  explicit parameter `Z : ℕ → ℝ`, and the accumulation loop is the
  recursion `mcPayoffSum`.
* `BinomialModel.price` mirrors `BinomialModel::price`; the
  `std::vector<double>` is a `List ℝ`, and the two nested loops performing
  in-place backward induction are `innerLoop` and `outerLoop`.
-/

open scoped BigOperators

/-- Payoff kind: the C++ `enum OptionType { Call, Put }`. -/
inductive OptionType where
  | Call : OptionType
  | Put : OptionType
deriving DecidableEq, Repr

/-- The C++ `EuropeanOption` class: the constructor stores the six fields
unchecked, exactly as `EuropeanOption(double S_, ...)` does. -/
structure EuropeanOption where
  S : ℝ
  K : ℝ
  T : ℝ
  r : ℝ
  sigma : ℝ
  type : OptionType

/-- `EuropeanOption::payoff`: `max(ST - K, 0)` for a call,
`max(K - ST, 0)` for a put. -/
noncomputable def EuropeanOption.payoff (opt : EuropeanOption) (ST : ℝ) : ℝ :=
  match opt.type with
  | OptionType.Call => max (ST - opt.K) 0
  | OptionType.Put => max (opt.K - ST) 0

/-- The complementary error function called by the C++ code as `std::erfc`:
`erfc x = (2 / √π) · ∫_x^∞ exp (-t²) dt`. -/
noncomputable def erfc (x : ℝ) : ℝ :=
  2 / Real.sqrt Real.pi * ∫ t in Set.Ioi x, Real.exp (-t ^ 2)

/-- `BlackScholesModel::norm_cdf`: `0.5 * erfc(-x * M_SQRT1_2)` where
`M_SQRT1_2 = 1/√2`. -/
noncomputable def norm_cdf (x : ℝ) : ℝ :=
  0.5 * erfc (-x * (Real.sqrt 2)⁻¹)

/-- `BlackScholesModel::price`: the closed-form Black-Scholes value. -/
noncomputable def BlackScholesModel.price (opt : EuropeanOption) : ℝ :=
  let d1 := (Real.log (opt.S / opt.K) + (opt.r + 0.5 * opt.sigma * opt.sigma) * opt.T) /
      (opt.sigma * Real.sqrt opt.T)
  let d2 := d1 - opt.sigma * Real.sqrt opt.T
  match opt.type with
  | OptionType.Call =>
      opt.S * norm_cdf d1 - opt.K * Real.exp (-opt.r * opt.T) * norm_cdf d2
  | OptionType.Put =>
      opt.K * Real.exp (-opt.r * opt.T) * norm_cdf (-d2) - opt.S * norm_cdf (-d1)

/-- The C++ `MonteCarloModel` class: the constructor
`MonteCarloModel(int num_simulations) : N(num_simulations)` stores the
sample count unchecked. -/
structure MonteCarloModel where
  N : ℤ

/-- The terminal price computed inside the Monte Carlo loop:
`ST = S * exp((r - 0.5*sigma*sigma)*T + sigma*sqrt(T)*Z)`. -/
noncomputable def mcSample (opt : EuropeanOption) (z : ℝ) : ℝ :=
  opt.S * Real.exp ((opt.r - 0.5 * opt.sigma * opt.sigma) * opt.T +
    opt.sigma * Real.sqrt opt.T * z)

/-- The accumulation loop of `MonteCarloModel::price`: after `n` iterations
`payoff_sum` holds this value, where `Z i` is the draw of iteration `i`. -/
noncomputable def mcPayoffSum (opt : EuropeanOption) (Z : ℕ → ℝ) : ℕ → ℝ
  | 0 => 0
  | n + 1 => mcPayoffSum opt Z n + opt.payoff (mcSample opt (Z n))

/-- `MonteCarloModel::price`: the loop runs for `i = 0, ..., N-1` (so not at
all when `N ≤ 0`), then the sum is discounted and divided by `N`. -/
noncomputable def MonteCarloModel.price (m : MonteCarloModel) (opt : EuropeanOption)
    (Z : ℕ → ℝ) : ℝ :=
  Real.exp (-opt.r * opt.T) * (mcPayoffSum opt Z m.N.toNat / (m.N : ℝ))

/-- The C++ `BinomialModel` class: the constructor
`BinomialModel(int steps) : N(steps)` stores the step count unchecked. -/
structure BinomialModel where
  N : ℤ

/-- The inner loop of `BinomialModel::price` at a fixed `step`: starting at
index `i` with `c` iterations left, it performs the in-place update
`option_values[i] = discount * (p * option_values[i] + (1 - p) * option_values[i + 1])`
and moves to `i + 1`. -/
noncomputable def innerLoop (p discount : ℝ) : List ℝ → ℕ → ℕ → List ℝ
  | v, _, 0 => v
  | v, i, c + 1 =>
      innerLoop p discount
        (v.set i (discount * (p * v.getD i 0 + (1 - p) * v.getD (i + 1) 0))) (i + 1) c

/-- The outer backward-induction loop of `BinomialModel::price`: with `k`
steps remaining, the current step is `k - 1` and the inner loop runs for
`i = 0, ..., k - 1` (`k` iterations). -/
noncomputable def outerLoop (p discount : ℝ) : List ℝ → ℕ → List ℝ
  | v, 0 => v
  | v, k + 1 => outerLoop p discount (innerLoop p discount v 0 (k + 1)) k

/-- `BinomialModel::price`: Cox-Ross-Rubinstein parameters, the vector of
terminal payoffs of size `N + 1`, backward induction in place, and the
root value `option_values[0]`. -/
noncomputable def BinomialModel.price (m : BinomialModel) (opt : EuropeanOption) : ℝ :=
  let n := m.N.toNat
  let dt := opt.T / (m.N : ℝ)
  let u := Real.exp (opt.sigma * Real.sqrt dt)
  let d := 1 / u
  let p := (Real.exp (opt.r * dt) - d) / (u - d)
  let discount := Real.exp (-opt.r * dt)
  let terminal := (List.range (n + 1)).map
    (fun i => opt.payoff (opt.S * u ^ (n - i) * d ^ i))
  (outerLoop p discount terminal n).getD 0 0

/-- Modelled from the spec: the backward-induction recurrence of §4.4,
`values[i] = discount · (p·values[i] + (1−p)·values[i+1])`, read as the
two-index recursion it denotes. `crrSpecValue term k i` is the value at
index `i` after `k` backward steps from the terminal layer `term`. -/
noncomputable def crrSpecValue (p discount : ℝ) (term : ℕ → ℝ) : ℕ → ℕ → ℝ
  | 0, i => term i
  | k + 1, i =>
      discount * (p * crrSpecValue p discount term k i +
        (1 - p) * crrSpecValue p discount term k (i + 1))

/-! ### Helper lemmas -/

lemma payoff_nonneg (opt : EuropeanOption) (x : ℝ) : 0 ≤ opt.payoff x := by
  unfold EuropeanOption.payoff
  cases opt.type <;> exact le_max_right _ _

lemma mcPayoffSum_eq_sum (opt : EuropeanOption) (Z : ℕ → ℝ) (n : ℕ) :
    mcPayoffSum opt Z n = ∑ i in Finset.range n, opt.payoff (mcSample opt (Z i)) := by
  induction n with
  | zero => simp [mcPayoffSum]
  | succ n ih => rw [mcPayoffSum, ih, Finset.sum_range_succ]

lemma mcPayoffSum_nonneg (opt : EuropeanOption) (Z : ℕ → ℝ) (n : ℕ) :
    0 ≤ mcPayoffSum opt Z n := by
  induction n with
  | zero => exact le_refl 0
  | succ n ih => exact add_nonneg ih (payoff_nonneg opt _)

/-- Evaluation of the lattice pricer at one step: a single in-place update
of the two terminal payoffs. -/
lemma binomial_price_one (opt : EuropeanOption) :
    (BinomialModel.mk 1).price opt =
      Real.exp (-opt.r * opt.T) *
        ((Real.exp (opt.r * opt.T) - 1 / Real.exp (opt.sigma * Real.sqrt opt.T)) /
            (Real.exp (opt.sigma * Real.sqrt opt.T) -
              1 / Real.exp (opt.sigma * Real.sqrt opt.T)) *
          opt.payoff (opt.S * Real.exp (opt.sigma * Real.sqrt opt.T)) +
        (1 - (Real.exp (opt.r * opt.T) - 1 / Real.exp (opt.sigma * Real.sqrt opt.T)) /
            (Real.exp (opt.sigma * Real.sqrt opt.T) -
              1 / Real.exp (opt.sigma * Real.sqrt opt.T))) *
          opt.payoff (opt.S * (1 / Real.exp (opt.sigma * Real.sqrt opt.T)))) := by
  show (outerLoop _ _ _ _).getD 0 0 = _
  norm_num [outerLoop, innerLoop, List.range_succ]

/-! ### C3, C10, C5, C6, C7 -/

/-- C3: for every contract and sample count `N > 0`, given the draws
`Z 0, ..., Z (N-1)` made during the call, the Simulation Pricer returns
`e^(-r·T)` times the average of `payoff (S · exp ((r - σ²/2)·T + σ·√T·Z_i))`,
where the payoff is `max (x - K) 0` for a call and `max (K - x) 0` for a put. -/
theorem simulation_price_discounted_average (opt : EuropeanOption) (Z : ℕ → ℝ)
    (n : ℕ) (hn : 0 < n) :
    (MonteCarloModel.mk (n : ℤ)).price opt Z =
      Real.exp (-(opt.r * opt.T)) *
        ((∑ i in Finset.range n,
          (match opt.type with
           | OptionType.Call => max (opt.S * Real.exp ((opt.r - 0.5 * opt.sigma ^ 2) * opt.T +
               opt.sigma * Real.sqrt opt.T * Z i) - opt.K) 0
           | OptionType.Put => max (opt.K - opt.S * Real.exp ((opt.r - 0.5 * opt.sigma ^ 2) * opt.T +
               opt.sigma * Real.sqrt opt.T * Z i)) 0)) / (n : ℝ)) := by
  unfold MonteCarloModel.price
  simp only [Int.toNat_ofNat, Int.cast_natCast]
  rw [mcPayoffSum_eq_sum]
  have harg : ∀ z : ℝ, (opt.r - 0.5 * opt.sigma * opt.sigma) * opt.T +
      opt.sigma * Real.sqrt opt.T * z =
      (opt.r - 0.5 * opt.sigma ^ 2) * opt.T + opt.sigma * Real.sqrt opt.T * z := by
    intro z; ring
  have hsum : ∀ i ∈ Finset.range n, opt.payoff (mcSample opt (Z i)) =
      (match opt.type with
       | OptionType.Call => max (opt.S * Real.exp ((opt.r - 0.5 * opt.sigma ^ 2) * opt.T +
           opt.sigma * Real.sqrt opt.T * Z i) - opt.K) 0
       | OptionType.Put => max (opt.K - opt.S * Real.exp ((opt.r - 0.5 * opt.sigma ^ 2) * opt.T +
           opt.sigma * Real.sqrt opt.T * Z i)) 0) := by
    intro i _
    unfold EuropeanOption.payoff mcSample
    rw [harg]
  rw [Finset.sum_congr rfl hsum]
  norm_num [neg_mul]

/-- Witness for C3 at a concrete input. -/
theorem simulation_price_discounted_average_witness :
    0 < 1 ∧
    (MonteCarloModel.mk ((1 : ℕ) : ℤ)).price (EuropeanOption.mk 1 1 1 0 1 OptionType.Call)
        (fun _ => 0) =
      Real.exp (-((EuropeanOption.mk 1 1 1 0 1 OptionType.Call).r *
          (EuropeanOption.mk 1 1 1 0 1 OptionType.Call).T)) *
        ((∑ i in Finset.range 1,
          (match (EuropeanOption.mk 1 1 1 0 1 OptionType.Call).type with
           | OptionType.Call => max ((EuropeanOption.mk 1 1 1 0 1 OptionType.Call).S *
               Real.exp (((EuropeanOption.mk 1 1 1 0 1 OptionType.Call).r -
                 0.5 * (EuropeanOption.mk 1 1 1 0 1 OptionType.Call).sigma ^ 2) *
                   (EuropeanOption.mk 1 1 1 0 1 OptionType.Call).T +
                 (EuropeanOption.mk 1 1 1 0 1 OptionType.Call).sigma *
                   Real.sqrt (EuropeanOption.mk 1 1 1 0 1 OptionType.Call).T * 0) -
               (EuropeanOption.mk 1 1 1 0 1 OptionType.Call).K) 0
           | OptionType.Put => max ((EuropeanOption.mk 1 1 1 0 1 OptionType.Call).K -
               (EuropeanOption.mk 1 1 1 0 1 OptionType.Call).S *
               Real.exp (((EuropeanOption.mk 1 1 1 0 1 OptionType.Call).r -
                 0.5 * (EuropeanOption.mk 1 1 1 0 1 OptionType.Call).sigma ^ 2) *
                   (EuropeanOption.mk 1 1 1 0 1 OptionType.Call).T +
                 (EuropeanOption.mk 1 1 1 0 1 OptionType.Call).sigma *
                   Real.sqrt (EuropeanOption.mk 1 1 1 0 1 OptionType.Call).T * 0)) 0)) / ((1 : ℕ) : ℝ)) :=
  ⟨by norm_num,
    simulation_price_discounted_average (EuropeanOption.mk 1 1 1 0 1 OptionType.Call)
      (fun _ => 0) 1 (by norm_num)⟩

/-- C10: the Simulation Pricer never returns a negative value: every
accumulated payoff is non-negative and the discount factor is positive. -/
theorem simulation_price_nonneg (m : MonteCarloModel) (opt : EuropeanOption)
    (Z : ℕ → ℝ) (hm : 0 < m.N) : 0 ≤ m.price opt Z := by
  unfold MonteCarloModel.price
  have h2 : (0 : ℝ) ≤ (m.N : ℝ) := by exact_mod_cast hm.le
  exact mul_nonneg (Real.exp_pos _).le
    (div_nonneg (mcPayoffSum_nonneg opt Z _) h2)

/-- Witness for C10 at a concrete input. -/
theorem simulation_price_nonneg_witness :
    0 < (MonteCarloModel.mk 2).N ∧
    0 ≤ (MonteCarloModel.mk 2).price (EuropeanOption.mk 1 1 1 0 1 OptionType.Put)
      (fun _ => 0) :=
  ⟨by norm_num,
    simulation_price_nonneg (MonteCarloModel.mk 2)
      (EuropeanOption.mk 1 1 1 0 1 OptionType.Put) (fun _ => 0) (by norm_num)⟩

/-- C5 counterexample: the contract with S = -1 (non-positive) is
constructed without any error, and the Lattice Pricer silently returns 0
on it instead of failing with a domain-validation error. -/
theorem no_validation_counterexample :
    (EuropeanOption.mk (-1) 1 1 0 1 OptionType.Call).S ≤ 0 ∧
    (BinomialModel.mk 1).price (EuropeanOption.mk (-1) 1 1 0 1 OptionType.Call) = 0 := by
  constructor
  · norm_num
  · rw [binomial_price_one]
    have h1 : (0:ℝ) < Real.exp 1 := Real.exp_pos 1
    have h2 : (0:ℝ) < 1 / Real.exp 1 := by positivity
    simp only [EuropeanOption.payoff]
    norm_num [Real.sqrt_one]
    have h2' : (0:ℝ) < (Real.exp 1)⁻¹ := by positivity
    have hm1 : max (-Real.exp 1 - 1) 0 = 0 := max_eq_right (by linarith)
    have hm2 : max (-(Real.exp 1)⁻¹ - 1) 0 = 0 := max_eq_right (by linarith)
    rw [hm1, hm2]
    ring

/-- C5 amended: no fail-fast validation exists anywhere: the constructor
stores non-positive parameters unchanged, and `price` proceeds to compute a
numeric value from the formulas on such a contract (no typed failure). -/
theorem construction_stores_unchecked (S K T r sigma : ℝ) (ty : OptionType)
    (h : S ≤ 0 ∨ K ≤ 0 ∨ T ≤ 0 ∨ sigma ≤ 0) :
    (EuropeanOption.mk S K T r sigma ty).S = S ∧
    (EuropeanOption.mk S K T r sigma ty).K = K ∧
    (EuropeanOption.mk S K T r sigma ty).T = T ∧
    (EuropeanOption.mk S K T r sigma ty).sigma = sigma ∧
    (BinomialModel.mk 1).price (EuropeanOption.mk S K T r sigma ty) =
      Real.exp (-r * T) *
        ((Real.exp (r * T) - 1 / Real.exp (sigma * Real.sqrt T)) /
            (Real.exp (sigma * Real.sqrt T) - 1 / Real.exp (sigma * Real.sqrt T)) *
          (EuropeanOption.mk S K T r sigma ty).payoff (S * Real.exp (sigma * Real.sqrt T)) +
        (1 - (Real.exp (r * T) - 1 / Real.exp (sigma * Real.sqrt T)) /
            (Real.exp (sigma * Real.sqrt T) - 1 / Real.exp (sigma * Real.sqrt T))) *
          (EuropeanOption.mk S K T r sigma ty).payoff (S * (1 / Real.exp (sigma * Real.sqrt T)))) :=
  ⟨rfl, rfl, rfl, rfl, binomial_price_one _⟩

/-- Witness for the amended C5 at a concrete invalid input. -/
theorem construction_stores_unchecked_witness :
    ((-1 : ℝ) ≤ 0 ∨ (1 : ℝ) ≤ 0 ∨ (1 : ℝ) ≤ 0 ∨ (1 : ℝ) ≤ 0) ∧
    (EuropeanOption.mk (-1) 1 1 0 1 OptionType.Call).S = -1 :=
  ⟨by norm_num,
    (construction_stores_unchecked (-1) 1 1 0 1 OptionType.Call (by norm_num)).1⟩

/-- C6 counterexample: pricer objects with non-positive configuration are
produced: construction stores the invalid count instead of rejecting it. -/
theorem pricer_config_unchecked_counterexample :
    (MonteCarloModel.mk (-3)).N = -3 ∧ (MonteCarloModel.mk (-3)).N ≤ 0 ∧
    (BinomialModel.mk 0).N = 0 ∧ (BinomialModel.mk 0).N ≤ 0 :=
  ⟨rfl, by norm_num, rfl, le_refl 0⟩

/-- C6 amended: the pricer constructors perform no validation: any integer
sample or step count, including non-positive ones, is stored unchanged and
an object is produced. -/
theorem pricer_config_stores_unchecked (n : ℤ) (h : n ≤ 0) :
    (MonteCarloModel.mk n).N = n ∧ (BinomialModel.mk n).N = n :=
  ⟨rfl, rfl⟩

/-- Witness for the amended C6 at a concrete non-positive count. -/
theorem pricer_config_stores_unchecked_witness :
    (-2 : ℤ) ≤ 0 ∧ (MonteCarloModel.mk (-2)).N = -2 :=
  ⟨by norm_num, (pricer_config_stores_unchecked (-2) (by norm_num)).1⟩

/-- C7: the Analytic and Lattice pricers are deterministic pure functions of
their inputs: any two calls on contracts with identical fields (and, for the
lattice, identical step counts) return identical values. -/
theorem analytic_lattice_deterministic (c₁ c₂ : EuropeanOption) (m₁ m₂ : BinomialModel)
    (hS : c₁.S = c₂.S) (hK : c₁.K = c₂.K) (hT : c₁.T = c₂.T) (hr : c₁.r = c₂.r)
    (hsig : c₁.sigma = c₂.sigma) (hty : c₁.type = c₂.type) (hN : m₁.N = m₂.N) :
    BlackScholesModel.price c₁ = BlackScholesModel.price c₂ ∧
    m₁.price c₁ = m₂.price c₂ := by
  have hc : c₁ = c₂ := by
    cases c₁
    cases c₂
    simp_all
  have hm : m₁ = m₂ := by
    cases m₁
    cases m₂
    simp_all
  rw [hc, hm]
  exact ⟨rfl, rfl⟩

/-- Witness for C7 at a concrete input. -/
theorem analytic_lattice_deterministic_witness :
    BlackScholesModel.price (EuropeanOption.mk 100 100 1 (1/20) (1/5) OptionType.Call) =
      BlackScholesModel.price (EuropeanOption.mk 100 100 1 (1/20) (1/5) OptionType.Call) ∧
    (BinomialModel.mk 3).price (EuropeanOption.mk 100 100 1 (1/20) (1/5) OptionType.Call) =
      (BinomialModel.mk 3).price (EuropeanOption.mk 100 100 1 (1/20) (1/5) OptionType.Call) :=
  analytic_lattice_deterministic _ _ _ _ rfl rfl rfl rfl rfl rfl rfl

/-! ### Backward-induction refinement: the in-place loops compute the CRR
recursion -/

lemma getD_set_ne (v : List ℝ) (i j : ℕ) (x : ℝ) (h : i ≠ j) :
    (v.set i x).getD j 0 = v.getD j 0 := by
  rw [List.getD_eq_getElem?_getD, List.getD_eq_getElem?_getD, List.getElem?_set_ne h]

lemma getD_set_self (v : List ℝ) (i : ℕ) (x : ℝ) (h : i < v.length) :
    (v.set i x).getD i 0 = x := by
  rw [List.getD_eq_getElem?_getD, List.getElem?_set_self h]
  rfl

lemma innerLoop_length (p disc : ℝ) (c : ℕ) : ∀ (v : List ℝ) (i : ℕ),
    (innerLoop p disc v i c).length = v.length := by
  induction c with
  | zero => intro v i; rfl
  | succ c ih =>
      intro v i
      rw [innerLoop, ih, List.length_set]

/-- Indices below the inner loop's starting position are untouched. -/
lemma innerLoop_getD_lt (p disc : ℝ) (c : ℕ) : ∀ (v : List ℝ) (i j : ℕ), j < i →
    (innerLoop p disc v i c).getD j 0 = v.getD j 0 := by
  induction c with
  | zero => intro v i j _; rfl
  | succ c ih =>
      intro v i j hj
      rw [innerLoop, ih _ _ _ (Nat.lt_succ_of_lt hj), getD_set_ne _ _ _ _ (Nat.ne_of_gt hj)]

/-- The in-place inner loop computes each updated entry from the values the
vector held before the pass: the write at index `j` happens after the reads
of indices `j` and `j + 1`, and later writes only touch higher indices. -/
lemma innerLoop_getD_in (p disc : ℝ) (c : ℕ) : ∀ (v : List ℝ) (i j : ℕ),
    i ≤ j → j < i + c → j < v.length →
    (innerLoop p disc v i c).getD j 0 =
      disc * (p * v.getD j 0 + (1 - p) * v.getD (j + 1) 0) := by
  induction c with
  | zero => intro v i j h1 h2 _; omega
  | succ c ih =>
      intro v i j h1 h2 hlen
      rw [innerLoop]
      rcases Nat.eq_or_lt_of_le h1 with heq | hlt
      · subst heq
        rw [innerLoop_getD_lt p disc c _ _ _ (Nat.lt_succ_self _),
          getD_set_self _ _ _ hlen]
      · rw [ih _ (i + 1) j hlt (by omega) (by rw [List.length_set]; exact hlen),
          getD_set_ne _ _ _ _ (by omega), getD_set_ne _ _ _ _ (by omega)]

/-- Invariant of the outer loop: if the live prefix of the vector holds the
CRR values of level `m`, running `k` more backward steps leaves the CRR
value of level `m + k` at the root. -/
lemma outerLoop_getD (p disc : ℝ) (term : ℕ → ℝ) (k : ℕ) : ∀ (v : List ℝ) (m : ℕ),
    k + 1 ≤ v.length →
    (∀ i, i ≤ k → v.getD i 0 = crrSpecValue p disc term m i) →
    (outerLoop p disc v k).getD 0 0 = crrSpecValue p disc term (m + k) 0 := by
  induction k with
  | zero =>
      intro v m _ hv
      simpa using hv 0 (le_refl 0)
  | succ k ih =>
      intro v m hlen hv
      rw [outerLoop]
      have hlen' : (innerLoop p disc v 0 (k + 1)).length = v.length :=
        innerLoop_length p disc (k + 1) v 0
      have hstep := ih (innerLoop p disc v 0 (k + 1)) (m + 1)
        (by rw [hlen']; omega) ?_
      · rw [hstep]
        congr 1
        omega
      · intro i hik
        rw [innerLoop_getD_in p disc (k + 1) v 0 i (Nat.zero_le _) (by omega) (by omega),
          hv i (by omega), hv (i + 1) (by omega)]
        rfl

/-- The lattice pricer on the terminal layer of size `n + 1` computes the
`n`-step CRR recursion at the root. -/
lemma outerLoop_range_map (p disc : ℝ) (f : ℕ → ℝ) (n : ℕ) :
    (outerLoop p disc ((List.range (n + 1)).map f) n).getD 0 0 =
      crrSpecValue p disc f n 0 := by
  have hterm : ∀ i, i ≤ n →
      ((List.range (n + 1)).map f).getD i 0 = crrSpecValue p disc f 0 i := by
    intro i hi
    rw [List.getD_eq_getElem?_getD, List.getElem?_map,
      List.getElem?_range (by omega : i < n + 1)]
    rfl
  have := outerLoop_getD p disc f n ((List.range (n + 1)).map f) 0
    (by simp) hterm
  simpa using this

/-- The lattice price equals the CRR recursion value at the root. -/
lemma binomial_price_eq_crr (opt : EuropeanOption) (n : ℕ) :
    (BinomialModel.mk (n : ℤ)).price opt =
      crrSpecValue
        ((Real.exp (opt.r * (opt.T / (n : ℝ))) -
            1 / Real.exp (opt.sigma * Real.sqrt (opt.T / (n : ℝ)))) /
          (Real.exp (opt.sigma * Real.sqrt (opt.T / (n : ℝ))) -
            1 / Real.exp (opt.sigma * Real.sqrt (opt.T / (n : ℝ)))))
        (Real.exp (-opt.r * (opt.T / (n : ℝ))))
        (fun i => opt.payoff (opt.S *
          Real.exp (opt.sigma * Real.sqrt (opt.T / (n : ℝ))) ^ (n - i) *
          (1 / Real.exp (opt.sigma * Real.sqrt (opt.T / (n : ℝ)))) ^ i))
        n 0 := by
  unfold BinomialModel.price
  simp only [Int.toNat_ofNat, Int.cast_natCast]
  exact outerLoop_range_map _ _ _ n

/-! ### Numeric bounds on `exp (1/8)` used by concrete witnesses -/

lemma exp_eighth_pow : Real.exp (1 / 8) ^ 8 = Real.exp 1 := by
  rw [← Real.exp_nat_mul]
  norm_num

lemma exp_eighth_gt : (1.133 : ℝ) < Real.exp (1 / 8) := by
  apply lt_of_pow_lt_pow_left 8 (Real.exp_pos _).le
  rw [exp_eighth_pow]
  calc (1.133 : ℝ) ^ 8 < 2.7182818283 := by norm_num
  _ < Real.exp 1 := Real.exp_one_gt_d9

lemma exp_eighth_lt : Real.exp (1 / 8) < 1.1332 := by
  apply lt_of_pow_lt_pow_left 8 (by norm_num)
  rw [exp_eighth_pow]
  calc Real.exp 1 < 2.7182818286 := Real.exp_one_lt_d9
  _ < (1.1332 : ℝ) ^ 8 := by norm_num

/-! ### C2 and C9 -/

/-- C2: for every contract and step count `N > 0`, the Lattice Pricer's
result equals the Cox-Ross-Rubinstein recursion: with `dt = T/N`,
`u = exp(σ√dt)`, `d = 1/u`, `p = (exp(r·dt) − d)/(u − d)` and
`discount = exp(−r·dt)`, terminal value `i` is `payoff (S·u^(N−i)·d^i)` and
each backward step replaces `values[i]` by
`discount·(p·values[i] + (1−p)·values[i+1])`; the root value is returned. -/
theorem lattice_price_crr_recursion (opt : EuropeanOption) (n : ℕ) (hn : 0 < n) :
    (BinomialModel.mk (n : ℤ)).price opt =
      crrSpecValue
        ((Real.exp (opt.r * (opt.T / (n : ℝ))) -
            1 / Real.exp (opt.sigma * Real.sqrt (opt.T / (n : ℝ)))) /
          (Real.exp (opt.sigma * Real.sqrt (opt.T / (n : ℝ))) -
            1 / Real.exp (opt.sigma * Real.sqrt (opt.T / (n : ℝ)))))
        (Real.exp (-opt.r * (opt.T / (n : ℝ))))
        (fun i => opt.payoff (opt.S *
          Real.exp (opt.sigma * Real.sqrt (opt.T / (n : ℝ))) ^ (n - i) *
          (1 / Real.exp (opt.sigma * Real.sqrt (opt.T / (n : ℝ)))) ^ i))
        n 0 :=
  binomial_price_eq_crr opt n

/-- Witness for C2 at a concrete input. -/
theorem lattice_price_crr_recursion_witness :
    0 < 1 ∧
    (BinomialModel.mk ((1 : ℕ) : ℤ)).price (EuropeanOption.mk 100 100 1 (1/20) (1/5) OptionType.Call) =
      crrSpecValue
        ((Real.exp ((EuropeanOption.mk 100 100 1 (1/20) (1/5) OptionType.Call).r *
            ((EuropeanOption.mk 100 100 1 (1/20) (1/5) OptionType.Call).T / ((1 : ℕ) : ℝ))) -
            1 / Real.exp ((EuropeanOption.mk 100 100 1 (1/20) (1/5) OptionType.Call).sigma *
              Real.sqrt ((EuropeanOption.mk 100 100 1 (1/20) (1/5) OptionType.Call).T / ((1 : ℕ) : ℝ)))) /
          (Real.exp ((EuropeanOption.mk 100 100 1 (1/20) (1/5) OptionType.Call).sigma *
              Real.sqrt ((EuropeanOption.mk 100 100 1 (1/20) (1/5) OptionType.Call).T / ((1 : ℕ) : ℝ))) -
            1 / Real.exp ((EuropeanOption.mk 100 100 1 (1/20) (1/5) OptionType.Call).sigma *
              Real.sqrt ((EuropeanOption.mk 100 100 1 (1/20) (1/5) OptionType.Call).T / ((1 : ℕ) : ℝ)))))
        (Real.exp (-(EuropeanOption.mk 100 100 1 (1/20) (1/5) OptionType.Call).r *
          ((EuropeanOption.mk 100 100 1 (1/20) (1/5) OptionType.Call).T / ((1 : ℕ) : ℝ))))
        (fun i => (EuropeanOption.mk 100 100 1 (1/20) (1/5) OptionType.Call).payoff
          ((EuropeanOption.mk 100 100 1 (1/20) (1/5) OptionType.Call).S *
          Real.exp ((EuropeanOption.mk 100 100 1 (1/20) (1/5) OptionType.Call).sigma *
            Real.sqrt ((EuropeanOption.mk 100 100 1 (1/20) (1/5) OptionType.Call).T / ((1 : ℕ) : ℝ))) ^ (1 - i) *
          (1 / Real.exp ((EuropeanOption.mk 100 100 1 (1/20) (1/5) OptionType.Call).sigma *
            Real.sqrt ((EuropeanOption.mk 100 100 1 (1/20) (1/5) OptionType.Call).T / ((1 : ℕ) : ℝ)))) ^ i))
        1 0 :=
  ⟨by norm_num,
    lattice_price_crr_recursion (EuropeanOption.mk 100 100 1 (1/20) (1/5) OptionType.Call)
      1 (by norm_num)⟩

/-- C9: the Lattice Pricer neither clamps nor validates the risk-neutral
probability `p`: even when `p` lies outside `[0, 1]`, `price` runs to
completion and returns the numeric value of the raw recursion computed with
that out-of-range `p` — no error is raised and no clamping occurs. -/
theorem lattice_no_p_clamping (opt : EuropeanOption) (n : ℕ)
    (hS : 0 < opt.S) (hK : 0 < opt.K) (hT : 0 < opt.T) (hsig : 0 < opt.sigma)
    (hn : 0 < n)
    (hp : ((Real.exp (opt.r * (opt.T / (n : ℝ))) -
        1 / Real.exp (opt.sigma * Real.sqrt (opt.T / (n : ℝ)))) /
      (Real.exp (opt.sigma * Real.sqrt (opt.T / (n : ℝ))) -
        1 / Real.exp (opt.sigma * Real.sqrt (opt.T / (n : ℝ))))) ∉ Set.Icc (0 : ℝ) 1) :
    (BinomialModel.mk (n : ℤ)).price opt =
      crrSpecValue
        ((Real.exp (opt.r * (opt.T / (n : ℝ))) -
            1 / Real.exp (opt.sigma * Real.sqrt (opt.T / (n : ℝ)))) /
          (Real.exp (opt.sigma * Real.sqrt (opt.T / (n : ℝ))) -
            1 / Real.exp (opt.sigma * Real.sqrt (opt.T / (n : ℝ)))))
        (Real.exp (-opt.r * (opt.T / (n : ℝ))))
        (fun i => opt.payoff (opt.S *
          Real.exp (opt.sigma * Real.sqrt (opt.T / (n : ℝ))) ^ (n - i) *
          (1 / Real.exp (opt.sigma * Real.sqrt (opt.T / (n : ℝ)))) ^ i))
        n 0 :=
  binomial_price_eq_crr opt n

/-- Witness for C9: at `S = K = T = 1`, `r = log 16`, `σ = 1/8`, `N = 1` the
computed probability exceeds 1, and the pricer still returns the raw
recursion value. -/
theorem lattice_no_p_clamping_witness :
    (((Real.exp ((EuropeanOption.mk 1 1 1 (Real.log 16) (1/8) OptionType.Call).r *
        ((EuropeanOption.mk 1 1 1 (Real.log 16) (1/8) OptionType.Call).T / ((1 : ℕ) : ℝ))) -
        1 / Real.exp ((EuropeanOption.mk 1 1 1 (Real.log 16) (1/8) OptionType.Call).sigma *
          Real.sqrt ((EuropeanOption.mk 1 1 1 (Real.log 16) (1/8) OptionType.Call).T / ((1 : ℕ) : ℝ)))) /
      (Real.exp ((EuropeanOption.mk 1 1 1 (Real.log 16) (1/8) OptionType.Call).sigma *
          Real.sqrt ((EuropeanOption.mk 1 1 1 (Real.log 16) (1/8) OptionType.Call).T / ((1 : ℕ) : ℝ))) -
        1 / Real.exp ((EuropeanOption.mk 1 1 1 (Real.log 16) (1/8) OptionType.Call).sigma *
          Real.sqrt ((EuropeanOption.mk 1 1 1 (Real.log 16) (1/8) OptionType.Call).T / ((1 : ℕ) : ℝ))))) ∉
        Set.Icc (0 : ℝ) 1) ∧
    (BinomialModel.mk ((1 : ℕ) : ℤ)).price (EuropeanOption.mk 1 1 1 (Real.log 16) (1/8) OptionType.Call) =
      crrSpecValue
        ((Real.exp ((EuropeanOption.mk 1 1 1 (Real.log 16) (1/8) OptionType.Call).r *
            ((EuropeanOption.mk 1 1 1 (Real.log 16) (1/8) OptionType.Call).T / ((1 : ℕ) : ℝ))) -
            1 / Real.exp ((EuropeanOption.mk 1 1 1 (Real.log 16) (1/8) OptionType.Call).sigma *
              Real.sqrt ((EuropeanOption.mk 1 1 1 (Real.log 16) (1/8) OptionType.Call).T / ((1 : ℕ) : ℝ)))) /
          (Real.exp ((EuropeanOption.mk 1 1 1 (Real.log 16) (1/8) OptionType.Call).sigma *
              Real.sqrt ((EuropeanOption.mk 1 1 1 (Real.log 16) (1/8) OptionType.Call).T / ((1 : ℕ) : ℝ))) -
            1 / Real.exp ((EuropeanOption.mk 1 1 1 (Real.log 16) (1/8) OptionType.Call).sigma *
              Real.sqrt ((EuropeanOption.mk 1 1 1 (Real.log 16) (1/8) OptionType.Call).T / ((1 : ℕ) : ℝ)))))
        (Real.exp (-(EuropeanOption.mk 1 1 1 (Real.log 16) (1/8) OptionType.Call).r *
          ((EuropeanOption.mk 1 1 1 (Real.log 16) (1/8) OptionType.Call).T / ((1 : ℕ) : ℝ))))
        (fun i => (EuropeanOption.mk 1 1 1 (Real.log 16) (1/8) OptionType.Call).payoff
          ((EuropeanOption.mk 1 1 1 (Real.log 16) (1/8) OptionType.Call).S *
          Real.exp ((EuropeanOption.mk 1 1 1 (Real.log 16) (1/8) OptionType.Call).sigma *
            Real.sqrt ((EuropeanOption.mk 1 1 1 (Real.log 16) (1/8) OptionType.Call).T / ((1 : ℕ) : ℝ))) ^ (1 - i) *
          (1 / Real.exp ((EuropeanOption.mk 1 1 1 (Real.log 16) (1/8) OptionType.Call).sigma *
            Real.sqrt ((EuropeanOption.mk 1 1 1 (Real.log 16) (1/8) OptionType.Call).T / ((1 : ℕ) : ℝ)))) ^ i))
        1 0 := by
  have ht1 : (1 : ℝ) < Real.exp (1 / 8) := lt_trans (by norm_num) exp_eighth_gt
  have ht16 : Real.exp (1 / 8) < 16 := lt_trans exp_eighth_lt (by norm_num)
  have htpos : (0 : ℝ) < Real.exp (1 / 8) := Real.exp_pos _
  have hinv : (Real.exp (1 / 8))⁻¹ < 1 := by
    rw [inv_lt_one_iff₀]
    right
    exact ht1
  have hden : (0 : ℝ) < Real.exp (1 / 8) - (Real.exp (1 / 8))⁻¹ := by
    have : (0 : ℝ) < (Real.exp (1 / 8))⁻¹ := by positivity
    linarith
  have hp : ((Real.exp ((EuropeanOption.mk 1 1 1 (Real.log 16) (1/8) OptionType.Call).r *
      ((EuropeanOption.mk 1 1 1 (Real.log 16) (1/8) OptionType.Call).T / ((1 : ℕ) : ℝ))) -
      1 / Real.exp ((EuropeanOption.mk 1 1 1 (Real.log 16) (1/8) OptionType.Call).sigma *
        Real.sqrt ((EuropeanOption.mk 1 1 1 (Real.log 16) (1/8) OptionType.Call).T / ((1 : ℕ) : ℝ)))) /
    (Real.exp ((EuropeanOption.mk 1 1 1 (Real.log 16) (1/8) OptionType.Call).sigma *
        Real.sqrt ((EuropeanOption.mk 1 1 1 (Real.log 16) (1/8) OptionType.Call).T / ((1 : ℕ) : ℝ))) -
      1 / Real.exp ((EuropeanOption.mk 1 1 1 (Real.log 16) (1/8) OptionType.Call).sigma *
        Real.sqrt ((EuropeanOption.mk 1 1 1 (Real.log 16) (1/8) OptionType.Call).T / ((1 : ℕ) : ℝ))))) ∉
      Set.Icc (0 : ℝ) 1 := by
    norm_num [Real.sqrt_one]
    intro _
    rw [Real.exp_log (by norm_num : (0:ℝ) < 16), lt_div_iff hden]
    linarith
  exact ⟨hp, lattice_no_p_clamping (EuropeanOption.mk 1 1 1 (Real.log 16) (1/8) OptionType.Call)
    1 (by norm_num) (by norm_num) (by norm_num) (by norm_num) (by norm_num) hp⟩

/-! ### Properties of the complementary error function -/

lemma integrable_exp_neg_sq : MeasureTheory.Integrable (fun t : ℝ => Real.exp (-t ^ 2)) := by
  have h := integrable_exp_neg_mul_sq (one_pos : (0 : ℝ) < 1)
  simpa using h

lemma integral_exp_neg_sq : (∫ t : ℝ, Real.exp (-t ^ 2)) = Real.sqrt Real.pi := by
  have h := integral_gaussian (1 : ℝ)
  simpa using h

lemma sqrt_pi_pos : (0 : ℝ) < Real.sqrt Real.pi :=
  Real.sqrt_pos.mpr Real.pi_pos

/-- Reflection: the upper Gaussian tail from `-x` equals the lower tail to `x`. -/
lemma integral_exp_neg_sq_Ioi_neg (x : ℝ) :
    (∫ t in Set.Ioi (-x), Real.exp (-t ^ 2)) = ∫ t in Set.Iic x, Real.exp (-t ^ 2) := by
  have h1 : (∫ t in Set.Ioi (-x), Real.exp (-t ^ 2)) =
      ∫ t in Set.Ioi (-x), Real.exp (-(-t) ^ 2) := by
    simp only [neg_sq]
  have h2 := integral_comp_neg_Ioi (-x) (fun s : ℝ => Real.exp (-s ^ 2))
  rw [neg_neg] at h2
  rw [h1]
  exact h2

lemma erfc_add_erfc_neg (x : ℝ) : erfc x + erfc (-x) = 2 := by
  unfold erfc
  rw [integral_exp_neg_sq_Ioi_neg, ← mul_add, add_comm,
    intervalIntegral.integral_Iic_add_Ioi
      integrable_exp_neg_sq.integrableOn integrable_exp_neg_sq.integrableOn,
    integral_exp_neg_sq]
  field_simp

lemma erfc_nonneg (x : ℝ) : 0 ≤ erfc x := by
  unfold erfc
  apply mul_nonneg (by positivity)
  exact MeasureTheory.setIntegral_nonneg measurableSet_Ioi fun t _ => (Real.exp_pos _).le

lemma erfc_le_two (x : ℝ) : erfc x ≤ 2 := by
  have h := erfc_add_erfc_neg x
  linarith [erfc_nonneg (-x)]

lemma erfc_antitone : Antitone erfc := by
  intro x y hxy
  unfold erfc
  apply mul_le_mul_of_nonneg_left _ (by positivity)
  apply MeasureTheory.setIntegral_mono_set integrable_exp_neg_sq.integrableOn
    (MeasureTheory.ae_of_all _ fun t => (Real.exp_pos _).le)
  exact Filter.Eventually.of_forall fun t ht => Set.Ioi_subset_Ioi hxy ht

lemma erfc_eq_sub (x : ℝ) :
    erfc x = erfc 0 - 2 / Real.sqrt Real.pi * ∫ t in (0 : ℝ)..x, Real.exp (-t ^ 2) := by
  unfold erfc
  rw [← mul_sub]
  congr 1
  have h0 : (∫ t in Set.Ioi (0 : ℝ), Real.exp (-t ^ 2)) =
      (∫ t : ℝ, Real.exp (-t ^ 2)) - ∫ t in Set.Iic (0 : ℝ), Real.exp (-t ^ 2) := by
    rw [← intervalIntegral.integral_Iic_add_Ioi
      integrable_exp_neg_sq.integrableOn integrable_exp_neg_sq.integrableOn]
    ring
  have hx : (∫ t in Set.Ioi x, Real.exp (-t ^ 2)) =
      (∫ t : ℝ, Real.exp (-t ^ 2)) - ∫ t in Set.Iic x, Real.exp (-t ^ 2) := by
    rw [← intervalIntegral.integral_Iic_add_Ioi
      integrable_exp_neg_sq.integrableOn integrable_exp_neg_sq.integrableOn]
    ring
  rw [hx, h0, ← intervalIntegral.integral_Iic_sub_Iic
    integrable_exp_neg_sq.integrableOn integrable_exp_neg_sq.integrableOn]
  ring

lemma continuous_exp_neg_sq : Continuous fun t : ℝ => Real.exp (-t ^ 2) := by
  fun_prop

lemma hasDerivAt_erfc (x : ℝ) :
    HasDerivAt erfc (-(2 / Real.sqrt Real.pi * Real.exp (-x ^ 2))) x := by
  have hF : HasDerivAt (fun y : ℝ => ∫ t in (0 : ℝ)..y, Real.exp (-t ^ 2))
      (Real.exp (-x ^ 2)) x :=
    intervalIntegral.integral_hasDerivAt_right
      integrable_exp_neg_sq.intervalIntegrable
      (continuous_exp_neg_sq.stronglyMeasurableAtFilter _ _)
      continuous_exp_neg_sq.continuousAt
  have h2 : HasDerivAt
      (fun y : ℝ => erfc 0 - 2 / Real.sqrt Real.pi * ∫ t in (0 : ℝ)..y, Real.exp (-t ^ 2))
      (-(2 / Real.sqrt Real.pi * Real.exp (-x ^ 2))) x :=
    (hF.const_mul (2 / Real.sqrt Real.pi)).const_sub (erfc 0)
  exact (funext erfc_eq_sub : erfc = _) ▸ h2

/-! ### Properties of the normal CDF used by the analytic pricer -/

/-- The standard normal density, the derivative of `norm_cdf`. -/
noncomputable def gaussPdf (x : ℝ) : ℝ :=
  (Real.sqrt (2 * Real.pi))⁻¹ * Real.exp (-x ^ 2 / 2)

lemma gaussPdf_pos (x : ℝ) : 0 < gaussPdf x := by
  unfold gaussPdf
  have h2pi : (0 : ℝ) < Real.sqrt (2 * Real.pi) :=
    Real.sqrt_pos.mpr (by positivity)
  positivity

lemma gaussPdf_neg (x : ℝ) : gaussPdf (-x) = gaussPdf x := by
  unfold gaussPdf
  rw [neg_sq]

lemma norm_cdf_eq (x : ℝ) : norm_cdf x = 0.5 * erfc (-x / Real.sqrt 2) := by
  unfold norm_cdf
  rw [div_eq_mul_inv]

lemma norm_cdf_add_neg (x : ℝ) : norm_cdf x + norm_cdf (-x) = 1 := by
  unfold norm_cdf
  have h : -(-x) * (Real.sqrt 2)⁻¹ = -(-x * (Real.sqrt 2)⁻¹) := by ring
  rw [h, ← mul_add, erfc_add_erfc_neg]
  norm_num

lemma norm_cdf_nonneg (x : ℝ) : 0 ≤ norm_cdf x := by
  unfold norm_cdf
  have := erfc_nonneg (-x * (Real.sqrt 2)⁻¹)
  linarith

lemma norm_cdf_le_one (x : ℝ) : norm_cdf x ≤ 1 := by
  unfold norm_cdf
  have := erfc_le_two (-x * (Real.sqrt 2)⁻¹)
  linarith

lemma norm_cdf_monotone : Monotone norm_cdf := by
  intro x y hxy
  unfold norm_cdf
  apply mul_le_mul_of_nonneg_left _ (by norm_num)
  apply erfc_antitone
  have hs : (0 : ℝ) < (Real.sqrt 2)⁻¹ := by
    have : (0 : ℝ) < Real.sqrt 2 := Real.sqrt_pos.mpr two_pos
    positivity
  nlinarith

lemma hasDerivAt_norm_cdf (x : ℝ) : HasDerivAt norm_cdf (gaussPdf x) x := by
  have hg : HasDerivAt (fun y : ℝ => -y * (Real.sqrt 2)⁻¹) (-1 * (Real.sqrt 2)⁻¹) x :=
    (hasDerivAt_id x).neg.mul_const _
  have hcomp : HasDerivAt (fun y : ℝ => erfc (-y * (Real.sqrt 2)⁻¹))
      (-(2 / Real.sqrt Real.pi * Real.exp (-(-x * (Real.sqrt 2)⁻¹) ^ 2)) *
        (-1 * (Real.sqrt 2)⁻¹)) x :=
    (hasDerivAt_erfc (-x * (Real.sqrt 2)⁻¹)).comp x hg
  have hmul : HasDerivAt (fun y : ℝ => 0.5 * erfc (-y * (Real.sqrt 2)⁻¹))
      (0.5 * (-(2 / Real.sqrt Real.pi * Real.exp (-(-x * (Real.sqrt 2)⁻¹) ^ 2)) *
        (-1 * (Real.sqrt 2)⁻¹))) x :=
    hcomp.const_mul 0.5
  have hfun : norm_cdf = fun y : ℝ => 0.5 * erfc (-y * (Real.sqrt 2)⁻¹) := rfl
  rw [hfun]
  convert hmul using 1
  have hsq2 : Real.sqrt 2 ^ 2 = 2 := Real.sq_sqrt (by norm_num)
  have hsq2pos : (0 : ℝ) < Real.sqrt 2 := Real.sqrt_pos.mpr two_pos
  have hargtwo : -(-x * (Real.sqrt 2)⁻¹) ^ 2 = -x ^ 2 / 2 := by
    rw [mul_pow, neg_sq, inv_pow, hsq2]
    ring
  rw [hargtwo]
  unfold gaussPdf
  have hpi : Real.sqrt (2 * Real.pi) = Real.sqrt 2 * Real.sqrt Real.pi :=
    Real.sqrt_mul (by norm_num) _
  rw [hpi]
  field_simp
  ring

/-! ### C1 and C4 -/

/-- C1: for `S, K, T, σ > 0` the analytic price equals the closed form: with
`d1 = (ln(S/K) + (r + σ²/2)T)/(σ√T)` and `d2 = d1 − σ√T`, the call value is
`S·Φ(d1) − K·e^(−rT)·Φ(d2)` and the put value is
`K·e^(−rT)·Φ(−d2) − S·Φ(−d1)`, with `Φ(x) = 0.5·erfc(−x/√2)`. -/
theorem analytic_price_closed_form (S K T r sigma : ℝ)
    (hS : 0 < S) (hK : 0 < K) (hT : 0 < T) (hsig : 0 < sigma) (ty : OptionType) :
    BlackScholesModel.price (EuropeanOption.mk S K T r sigma ty) =
      (match ty with
       | OptionType.Call =>
           S * (0.5 * erfc (-((Real.log (S / K) + (r + 0.5 * sigma ^ 2) * T) /
               (sigma * Real.sqrt T)) / Real.sqrt 2)) -
           K * Real.exp (-(r * T)) * (0.5 * erfc (-((Real.log (S / K) +
               (r + 0.5 * sigma ^ 2) * T) / (sigma * Real.sqrt T) -
               sigma * Real.sqrt T) / Real.sqrt 2))
       | OptionType.Put =>
           K * Real.exp (-(r * T)) * (0.5 * erfc (((Real.log (S / K) +
               (r + 0.5 * sigma ^ 2) * T) / (sigma * Real.sqrt T) -
               sigma * Real.sqrt T) / Real.sqrt 2)) -
           S * (0.5 * erfc (((Real.log (S / K) + (r + 0.5 * sigma ^ 2) * T) /
               (sigma * Real.sqrt T)) / Real.sqrt 2))) := by
  have hsq : 0.5 * sigma * sigma = 0.5 * sigma ^ 2 := by ring
  cases ty <;>
    simp only [BlackScholesModel.price, norm_cdf_eq, hsq, neg_mul, neg_neg, neg_sub] <;>
    ring_nf

/-- Witness for C1 at a concrete input. -/
theorem analytic_price_closed_form_witness :
    (0 : ℝ) < 100 ∧
    BlackScholesModel.price (EuropeanOption.mk 100 110 2 (1/20) (1/4) OptionType.Put) =
      (match OptionType.Put with
       | OptionType.Call =>
           (100 : ℝ) * (0.5 * erfc (-((Real.log (100 / 110) + (1/20 + 0.5 * (1/4 : ℝ) ^ 2) * 2) /
               ((1/4) * Real.sqrt 2)) / Real.sqrt 2)) -
           110 * Real.exp (-((1/20) * 2)) * (0.5 * erfc (-((Real.log (100 / 110) +
               (1/20 + 0.5 * (1/4 : ℝ) ^ 2) * 2) / ((1/4) * Real.sqrt 2) -
               (1/4) * Real.sqrt 2) / Real.sqrt 2))
       | OptionType.Put =>
           (110 : ℝ) * Real.exp (-((1/20) * 2)) * (0.5 * erfc (((Real.log (100 / 110) +
               (1/20 + 0.5 * (1/4 : ℝ) ^ 2) * 2) / ((1/4) * Real.sqrt 2) -
               (1/4) * Real.sqrt 2) / Real.sqrt 2)) -
           100 * (0.5 * erfc (((Real.log (100 / 110) + (1/20 + 0.5 * (1/4 : ℝ) ^ 2) * 2) /
               ((1/4) * Real.sqrt 2)) / Real.sqrt 2))) :=
  ⟨by norm_num,
    analytic_price_closed_form 100 110 2 (1/20) (1/4) (by norm_num) (by norm_num)
      (by norm_num) (by norm_num) OptionType.Put⟩

/-- C4: put-call parity holds exactly for the analytic pricer:
`Call − Put = S − K·e^(−r·T)` on identical parameters. -/
theorem analytic_put_call_parity (S K T r sigma : ℝ)
    (hS : 0 < S) (hK : 0 < K) (hT : 0 < T) (hsig : 0 < sigma) :
    BlackScholesModel.price (EuropeanOption.mk S K T r sigma OptionType.Call) -
      BlackScholesModel.price (EuropeanOption.mk S K T r sigma OptionType.Put) =
    S - K * Real.exp (-r * T) := by
  simp only [BlackScholesModel.price]
  have h1 := norm_cdf_add_neg
    ((Real.log (S / K) + (r + 0.5 * sigma * sigma) * T) / (sigma * Real.sqrt T))
  have h2 := norm_cdf_add_neg
    ((Real.log (S / K) + (r + 0.5 * sigma * sigma) * T) / (sigma * Real.sqrt T) -
      sigma * Real.sqrt T)
  linear_combination S * h1 - K * Real.exp (-r * T) * h2

/-- Witness for C4 at a concrete input. -/
theorem analytic_put_call_parity_witness :
    (0 : ℝ) < 100 ∧
    BlackScholesModel.price (EuropeanOption.mk 100 95 1 (1/20) (1/5) OptionType.Call) -
      BlackScholesModel.price (EuropeanOption.mk 100 95 1 (1/20) (1/5) OptionType.Put) =
    100 - 95 * Real.exp (-(1/20) * 1) :=
  ⟨by norm_num,
    analytic_put_call_parity 100 95 1 (1/20) (1/5) (by norm_num) (by norm_num)
      (by norm_num) (by norm_num)⟩

/-! ### Monotonicity helpers: simulation and lattice -/

lemma mcPayoffSum_mono (opt1 opt2 : EuropeanOption) (Z : ℕ → ℝ)
    (h : ∀ z : ℝ, opt1.payoff (mcSample opt1 z) ≤ opt2.payoff (mcSample opt2 z)) :
    ∀ n : ℕ, mcPayoffSum opt1 Z n ≤ mcPayoffSum opt2 Z n := by
  intro n
  induction n with
  | zero => exact le_refl 0
  | succ n ih => exact add_le_add ih (h (Z n))

/-- Same draws, larger spot: each call payoff sample is at least as large. -/
lemma mc_call_payoff_mono (S₁ S₂ K T r sigma : ℝ) (h12 : S₁ ≤ S₂) (z : ℝ) :
    (EuropeanOption.mk S₁ K T r sigma OptionType.Call).payoff
      (mcSample (EuropeanOption.mk S₁ K T r sigma OptionType.Call) z) ≤
    (EuropeanOption.mk S₂ K T r sigma OptionType.Call).payoff
      (mcSample (EuropeanOption.mk S₂ K T r sigma OptionType.Call) z) := by
  unfold EuropeanOption.payoff mcSample
  have he := (Real.exp_pos ((r - 0.5 * sigma * sigma) * T + sigma * Real.sqrt T * z)).le
  exact max_le_max (sub_le_sub_right (mul_le_mul_of_nonneg_right h12 he) K) (le_refl 0)

lemma mc_put_payoff_anti (S₁ S₂ K T r sigma : ℝ) (h12 : S₁ ≤ S₂) (z : ℝ) :
    (EuropeanOption.mk S₂ K T r sigma OptionType.Put).payoff
      (mcSample (EuropeanOption.mk S₂ K T r sigma OptionType.Put) z) ≤
    (EuropeanOption.mk S₁ K T r sigma OptionType.Put).payoff
      (mcSample (EuropeanOption.mk S₁ K T r sigma OptionType.Put) z) := by
  unfold EuropeanOption.payoff mcSample
  have he := (Real.exp_pos ((r - 0.5 * sigma * sigma) * T + sigma * Real.sqrt T * z)).le
  exact max_le_max (sub_le_sub_left (mul_le_mul_of_nonneg_right h12 he) K) (le_refl 0)

lemma mc_price_mono_of_sum (opt1 opt2 : EuropeanOption) (Z : ℕ → ℝ) (n : ℤ)
    (hn : 0 < n) (hrT : opt1.r = opt2.r) (hT : opt1.T = opt2.T)
    (h : ∀ z : ℝ, opt1.payoff (mcSample opt1 z) ≤ opt2.payoff (mcSample opt2 z)) :
    (MonteCarloModel.mk n).price opt1 Z ≤ (MonteCarloModel.mk n).price opt2 Z := by
  unfold MonteCarloModel.price
  rw [hrT, hT]
  have hn' : (0 : ℝ) < (n : ℝ) := by exact_mod_cast hn
  apply mul_le_mul_of_nonneg_left _ (Real.exp_pos _).le
  exact (div_le_div_right hn').mpr (mcPayoffSum_mono opt1 opt2 Z h _)

/-- Backward induction preserves pointwise ordering of the terminal layers
as long as `p ∈ [0, 1]` and the discount is non-negative. -/
lemma crrSpecValue_mono_term (p disc : ℝ) (hp0 : 0 ≤ p) (hp1 : p ≤ 1) (hd : 0 ≤ disc)
    (t1 t2 : ℕ → ℝ) (ht : ∀ i, t1 i ≤ t2 i) :
    ∀ k i, crrSpecValue p disc t1 k i ≤ crrSpecValue p disc t2 k i := by
  intro k
  induction k with
  | zero => intro i; exact ht i
  | succ k ih =>
      intro i
      apply mul_le_mul_of_nonneg_left _ hd
      have h1p : 0 ≤ 1 - p := by linarith
      exact add_le_add (mul_le_mul_of_nonneg_left (ih i) hp0)
        (mul_le_mul_of_nonneg_left (ih (i + 1)) h1p)

/-- With `p ∈ [0,1]`, the lattice call price is non-decreasing in the spot. -/
lemma binomial_call_mono_S (S₁ S₂ K T r sigma : ℝ) (n : ℕ) (h12 : S₁ ≤ S₂)
    (hp : ((Real.exp (r * (T / (n : ℝ))) -
        1 / Real.exp (sigma * Real.sqrt (T / (n : ℝ)))) /
      (Real.exp (sigma * Real.sqrt (T / (n : ℝ))) -
        1 / Real.exp (sigma * Real.sqrt (T / (n : ℝ))))) ∈ Set.Icc (0 : ℝ) 1) :
    (BinomialModel.mk (n : ℤ)).price (EuropeanOption.mk S₁ K T r sigma OptionType.Call) ≤
    (BinomialModel.mk (n : ℤ)).price (EuropeanOption.mk S₂ K T r sigma OptionType.Call) := by
  rw [binomial_price_eq_crr, binomial_price_eq_crr]
  have hterm : ∀ i,
      (EuropeanOption.mk S₁ K T r sigma OptionType.Call).payoff (S₁ *
        Real.exp (sigma * Real.sqrt (T / (n : ℝ))) ^ (n - i) *
        (1 / Real.exp (sigma * Real.sqrt (T / (n : ℝ)))) ^ i) ≤
      (EuropeanOption.mk S₂ K T r sigma OptionType.Call).payoff (S₂ *
        Real.exp (sigma * Real.sqrt (T / (n : ℝ))) ^ (n - i) *
        (1 / Real.exp (sigma * Real.sqrt (T / (n : ℝ)))) ^ i) := by
    intro i
    unfold EuropeanOption.payoff
    apply max_le_max _ (le_refl 0)
    apply sub_le_sub_right
    have hu := (Real.exp_pos (sigma * Real.sqrt (T / (n : ℝ)))).le
    have hd' : (0 : ℝ) ≤ 1 / Real.exp (sigma * Real.sqrt (T / (n : ℝ))) := by positivity
    exact mul_le_mul_of_nonneg_right
      (mul_le_mul_of_nonneg_right h12 (pow_nonneg hu _)) (pow_nonneg hd' _)
  exact crrSpecValue_mono_term _ _ hp.1 hp.2 (Real.exp_pos _).le _ _ hterm n 0

/-- With `p ∈ [0,1]`, the lattice put price is non-increasing in the spot. -/
lemma binomial_put_anti_S (S₁ S₂ K T r sigma : ℝ) (n : ℕ) (h12 : S₁ ≤ S₂)
    (hp : ((Real.exp (r * (T / (n : ℝ))) -
        1 / Real.exp (sigma * Real.sqrt (T / (n : ℝ)))) /
      (Real.exp (sigma * Real.sqrt (T / (n : ℝ))) -
        1 / Real.exp (sigma * Real.sqrt (T / (n : ℝ))))) ∈ Set.Icc (0 : ℝ) 1) :
    (BinomialModel.mk (n : ℤ)).price (EuropeanOption.mk S₂ K T r sigma OptionType.Put) ≤
    (BinomialModel.mk (n : ℤ)).price (EuropeanOption.mk S₁ K T r sigma OptionType.Put) := by
  rw [binomial_price_eq_crr, binomial_price_eq_crr]
  have hterm : ∀ i,
      (EuropeanOption.mk S₂ K T r sigma OptionType.Put).payoff (S₂ *
        Real.exp (sigma * Real.sqrt (T / (n : ℝ))) ^ (n - i) *
        (1 / Real.exp (sigma * Real.sqrt (T / (n : ℝ)))) ^ i) ≤
      (EuropeanOption.mk S₁ K T r sigma OptionType.Put).payoff (S₁ *
        Real.exp (sigma * Real.sqrt (T / (n : ℝ))) ^ (n - i) *
        (1 / Real.exp (sigma * Real.sqrt (T / (n : ℝ)))) ^ i) := by
    intro i
    unfold EuropeanOption.payoff
    apply max_le_max _ (le_refl 0)
    apply sub_le_sub_left
    have hu := (Real.exp_pos (sigma * Real.sqrt (T / (n : ℝ)))).le
    have hd' : (0 : ℝ) ≤ 1 / Real.exp (sigma * Real.sqrt (T / (n : ℝ))) := by positivity
    exact mul_le_mul_of_nonneg_right
      (mul_le_mul_of_nonneg_right h12 (pow_nonneg hu _)) (pow_nonneg hd' _)
  exact crrSpecValue_mono_term _ _ hp.1 hp.2 (Real.exp_pos _).le _ _ hterm n 0

set_option maxHeartbeats 1000000 in
/-- C8 counterexample: the claimed monotonicity fails on the code at
explicit inputs. (1) With identical draws `Z ≡ 1`, the Simulation call
price strictly decreases when σ rises from 1 to 2 (S = K = T = 1, r = 0,
N = 1). (2) The Lattice call price strictly decreases when S rises from 1
to 21/20 (K = T = 1, r = −log 16, σ = 1/8, N = 1, where p < 0). (3) The
Lattice call price strictly decreases when σ rises from 1/8 to 1/4
(S = 11/10, K = T = 1, r = log 16, N = 1, where p > 1). All parameters
satisfy S, K, T, σ > 0. -/
theorem monotonicity_counterexample :
    ((MonteCarloModel.mk 1).price (EuropeanOption.mk 1 1 1 0 2 OptionType.Call) (fun _ => 1) <
      (MonteCarloModel.mk 1).price (EuropeanOption.mk 1 1 1 0 1 OptionType.Call) (fun _ => 1)) ∧
    ((BinomialModel.mk 1).price
        (EuropeanOption.mk (21/20) 1 1 (-Real.log 16) (1/8) OptionType.Call) <
      (BinomialModel.mk 1).price
        (EuropeanOption.mk 1 1 1 (-Real.log 16) (1/8) OptionType.Call)) ∧
    ((BinomialModel.mk 1).price
        (EuropeanOption.mk (11/10) 1 1 (Real.log 16) (1/4) OptionType.Call) <
      (BinomialModel.mk 1).price
        (EuropeanOption.mk (11/10) 1 1 (Real.log 16) (1/8) OptionType.Call)) := by
  refine ⟨?_, ?_, ?_⟩
  · have h1 : (1 : ℤ).toNat = 1 := rfl
    simp only [MonteCarloModel.price, h1, mcPayoffSum, mcSample, EuropeanOption.payoff]
    norm_num [Real.sqrt_one]
  · have ht1 : (1 : ℝ) < Real.exp (1 / 8) := lt_trans (by norm_num) exp_eighth_gt
    have ht133 : (1.133 : ℝ) < Real.exp (1 / 8) := exp_eighth_gt
    have ht16 : Real.exp (1 / 8) < 16 := lt_trans exp_eighth_lt (by norm_num)
    have htpos : (0 : ℝ) < Real.exp (1 / 8) := Real.exp_pos _
    have htinv : (Real.exp (1 / 8))⁻¹ < 1 := by
      rw [inv_lt_one_iff₀]
      right
      exact ht1
    have htinvpos : (0 : ℝ) < (Real.exp (1 / 8))⁻¹ := by positivity
    rw [binomial_price_one, binomial_price_one]
    norm_num [Real.sqrt_one, EuropeanOption.payoff]
    rw [Real.exp_log (by norm_num : (0:ℝ) < 16), Real.exp_neg,
      Real.exp_log (by norm_num : (0:ℝ) < 16)]
    have hpay1 : max (21 / 20 * Real.exp (1 / 8) - 1) 0 = 21 / 20 * Real.exp (1 / 8) - 1 :=
      max_eq_left (by linarith)
    have hpay2 : max (21 / 20 * (Real.exp (1 / 8))⁻¹ - 1) 0 = 0 := by
      apply max_eq_right
      have h20 : (Real.exp (1 / 8))⁻¹ < 20 / 21 := by
        rw [inv_lt_iff_one_lt_mul₀ htpos]
        nlinarith
      nlinarith
    have hpay3 : max (Real.exp (1 / 8) - 1) 0 = Real.exp (1 / 8) - 1 :=
      max_eq_left (by linarith)
    have hpay4 : max ((Real.exp (1 / 8))⁻¹ - 1) 0 = 0 :=
      max_eq_right (by linarith)
    simp only [hpay1, hpay2, hpay3, hpay4]
    have hden : (0 : ℝ) < Real.exp (1 / 8) - (Real.exp (1 / 8))⁻¹ := by linarith
    have hnum : (16 : ℝ)⁻¹ - (Real.exp (1 / 8))⁻¹ < 0 := by
      have h1 := one_div_lt_one_div_of_lt htpos ht16
      rw [one_div, one_div] at h1
      linarith
    have hp_neg : ((16 : ℝ)⁻¹ - (Real.exp (1 / 8))⁻¹) /
        (Real.exp (1 / 8) - (Real.exp (1 / 8))⁻¹) < 0 :=
      div_neg_of_neg_of_pos hnum hden
    have hkey := mul_lt_mul_of_neg_left
      (show Real.exp (1 / 8) - 1 < 21 / 20 * Real.exp (1 / 8) - 1 by linarith) hp_neg
    nlinarith [hkey]
  · have ht_lo : (1.133 : ℝ) < Real.exp (1 / 8) := exp_eighth_gt
    have ht_hi : Real.exp (1 / 8) < 1.1332 := exp_eighth_lt
    have htpos : (0 : ℝ) < Real.exp (1 / 8) := Real.exp_pos _
    have hsq : Real.exp (1 / 4 : ℝ) = Real.exp (1 / 8) ^ 2 := by
      rw [← Real.exp_nat_mul]
      norm_num
    rw [binomial_price_one, binomial_price_one]
    norm_num [Real.sqrt_one, EuropeanOption.payoff, hsq]
    rw [Real.exp_log (by norm_num : (0:ℝ) < 16), Real.exp_neg,
      Real.exp_log (by norm_num : (0:ℝ) < 16)]
    set t := Real.exp (1 / 8) with htdef
    have ht0 : t ≠ 0 := ne_of_gt htpos
    have ht2_lo : (1.283689 : ℝ) < t ^ 2 := by nlinarith
    have ht2_hi : t ^ 2 < 1.28414224 := by nlinarith
    have h2pos : (0 : ℝ) < t ^ 2 := by positivity
    have hmax1 : max (11 / 10 * t ^ 2 - 1) 0 = 11 / 10 * t ^ 2 - 1 := max_eq_left (by nlinarith)
    have hmax2 : max (11 / 10 * (t ^ 2)⁻¹ - 1) 0 = 0 := by
      apply max_eq_right
      have hi : (t ^ 2)⁻¹ < 10 / 11 := by
        rw [inv_lt_iff_one_lt_mul₀ h2pos]
        nlinarith
      nlinarith
    have hmax3 : max (11 / 10 * t - 1) 0 = 11 / 10 * t - 1 := max_eq_left (by nlinarith)
    have hmax4 : max (11 / 10 * t⁻¹ - 1) 0 = 0 := by
      apply max_eq_right
      have hi : t⁻¹ < 10 / 11 := by
        rw [inv_lt_iff_one_lt_mul₀ htpos]
        nlinarith
      nlinarith
    simp only [hmax1, hmax2, hmax3, hmax4, mul_zero, add_zero]
    apply mul_lt_mul_of_pos_left _ (by norm_num : (0 : ℝ) < 16⁻¹)
    have hinv2 : (t ^ 2)⁻¹ < 1 := by
      rw [inv_lt_one_iff₀]
      right
      nlinarith
    have hinv1 : t⁻¹ < 1 := by
      rw [inv_lt_one_iff₀]
      right
      nlinarith
    have hgt2 : (0 : ℝ) < t ^ 2 - (t ^ 2)⁻¹ := by nlinarith
    have hgt1 : (0 : ℝ) < t - t⁻¹ := by nlinarith
    have h4m1 : (0 : ℝ) < t ^ 4 - 1 := by nlinarith
    have h2m1 : (0 : ℝ) < t ^ 2 - 1 := by nlinarith
    have hA : (16 - (t ^ 2)⁻¹) / (t ^ 2 - (t ^ 2)⁻¹) = (16 * t ^ 2 - 1) / (t ^ 4 - 1) := by
      have e1 : (16 - (t ^ 2)⁻¹) * t ^ 2 = 16 * t ^ 2 - 1 := by
        rw [sub_mul, inv_mul_cancel₀ (ne_of_gt h2pos)]
      have e2 : (t ^ 2 - (t ^ 2)⁻¹) * t ^ 2 = t ^ 4 - 1 := by
        rw [sub_mul, inv_mul_cancel₀ (ne_of_gt h2pos)]
        ring
      rw [← e1, ← e2, mul_div_mul_right _ _ (ne_of_gt h2pos)]
    have hB : (16 - t⁻¹) / (t - t⁻¹) = (16 * t - 1) / (t ^ 2 - 1) := by
      have e1 : (16 - t⁻¹) * t = 16 * t - 1 := by
        rw [sub_mul, inv_mul_cancel₀ ht0]
      have e2 : (t - t⁻¹) * t = t ^ 2 - 1 := by
        rw [sub_mul, inv_mul_cancel₀ ht0]
        ring
      rw [← e1, ← e2, mul_div_mul_right _ _ ht0]
    rw [hA, hB]
    have hA2 : (16 * t ^ 2 - 1) / (t ^ 4 - 1) * (11 / 10 * t ^ 2 - 1) =
        (16 * t ^ 2 - 1) * (11 / 10 * t ^ 2 - 1) / (t ^ 4 - 1) := div_mul_eq_mul_div _ _ _
    have hB2 : (16 * t - 1) / (t ^ 2 - 1) * (11 / 10 * t - 1) =
        (16 * t - 1) * (11 / 10 * t - 1) / (t ^ 2 - 1) := div_mul_eq_mul_div _ _ _
    rw [hA2, hB2, div_lt_div_iff h4m1 h2m1]
    have ha_hi : 16 * t ^ 2 - 1 < 19.5463 := by nlinarith
    have hb_hi : 11 / 10 * t ^ 2 - 1 < 0.41256 := by nlinarith
    have ha_pos : (0 : ℝ) ≤ 16 * t ^ 2 - 1 := by nlinarith
    have hb_pos : (0 : ℝ) ≤ 11 / 10 * t ^ 2 - 1 := by nlinarith
    have hLa : (16 * t ^ 2 - 1) * (11 / 10 * t ^ 2 - 1) < 19.5463 * 0.41256 :=
      mul_lt_mul'' ha_hi hb_hi ha_pos hb_pos
    have ht2m1_hi : t ^ 2 - 1 < 0.2842 := by nlinarith
    have hL : (16 * t ^ 2 - 1) * (11 / 10 * t ^ 2 - 1) * (t ^ 2 - 1) <
        19.5463 * 0.41256 * 0.2842 :=
      mul_lt_mul'' hLa ht2m1_hi (mul_nonneg ha_pos hb_pos) h2m1.le
    have hc1 : (17.128 : ℝ) < 16 * t - 1 := by nlinarith
    have hc2 : (0.2463 : ℝ) < 11 / 10 * t - 1 := by nlinarith
    have hprod : (17.128 : ℝ) * 0.2463 < (16 * t - 1) * (11 / 10 * t - 1) :=
      mul_lt_mul'' hc1 hc2 (by norm_num) (by norm_num)
    have ht4m1_lo : (0.6478 : ℝ) < t ^ 4 - 1 := by nlinarith
    have hR : (17.128 : ℝ) * 0.2463 * 0.6478 <
        (16 * t - 1) * (11 / 10 * t - 1) * (t ^ 4 - 1) :=
      mul_lt_mul'' hprod ht4m1_lo (by norm_num) (by norm_num)
    nlinarith [hL, hR]

/-! ### Analytic monotonicity -/

/-- The Black-Scholes `d1` as a function of the contract parameters. -/
noncomputable def d1fn (K T r sigma s : ℝ) : ℝ :=
  (Real.log (s / K) + (r + 0.5 * sigma * sigma) * T) / (sigma * Real.sqrt T)

/-- The analytic call price as a function of the parameters. -/
noncomputable def bsCallFn (K T r sigma s : ℝ) : ℝ :=
  s * norm_cdf (d1fn K T r sigma s) -
    K * Real.exp (-r * T) * norm_cdf (d1fn K T r sigma s - sigma * Real.sqrt T)

/-- The analytic put price as a function of the parameters. -/
noncomputable def bsPutFn (K T r sigma s : ℝ) : ℝ :=
  K * Real.exp (-r * T) * norm_cdf (-(d1fn K T r sigma s - sigma * Real.sqrt T)) -
    s * norm_cdf (-(d1fn K T r sigma s))

lemma price_call_eq_fn (S K T r sigma : ℝ) :
    BlackScholesModel.price (EuropeanOption.mk S K T r sigma OptionType.Call) =
      bsCallFn K T r sigma S := rfl

lemma price_put_eq_fn (S K T r sigma : ℝ) :
    BlackScholesModel.price (EuropeanOption.mk S K T r sigma OptionType.Put) =
      bsPutFn K T r sigma S := rfl

/-- The Black-Scholes density identity `S·φ(d1) = K·e^(−rT)·φ(d2)`. -/
lemma bs_pdf_identity (S K T r sigma : ℝ)
    (hS : 0 < S) (hK : 0 < K) (hT : 0 < T) (hsig : 0 < sigma) :
    S * gaussPdf (d1fn K T r sigma S) =
      K * Real.exp (-r * T) * gaussPdf (d1fn K T r sigma S - sigma * Real.sqrt T) := by
  have hsT : (0 : ℝ) < Real.sqrt T := Real.sqrt_pos.mpr hT
  have hv : sigma * Real.sqrt T ≠ 0 := ne_of_gt (by positivity)
  have hvsq : (sigma * Real.sqrt T) ^ 2 = sigma ^ 2 * T := by
    rw [mul_pow, Real.sq_sqrt hT.le]
  have hd1v : d1fn K T r sigma S * (sigma * Real.sqrt T) =
      Real.log (S / K) + (r + 0.5 * sigma * sigma) * T := by
    unfold d1fn
    field_simp
  have hlog : Real.log (S / K) = Real.log S - Real.log K :=
    Real.log_div (ne_of_gt hS) (ne_of_gt hK)
  have key : Real.log S + -(d1fn K T r sigma S) ^ 2 / 2 =
      Real.log K + (-r * T) + -(d1fn K T r sigma S - sigma * Real.sqrt T) ^ 2 / 2 := by
    linear_combination (-1 : ℝ) * hd1v + (1/2 : ℝ) * hvsq - hlog
  have hSe : Real.exp (Real.log S + -(d1fn K T r sigma S) ^ 2 / 2) =
      S * Real.exp (-(d1fn K T r sigma S) ^ 2 / 2) := by
    rw [Real.exp_add, Real.exp_log hS]
  have hKe : Real.exp (Real.log K + (-r * T) +
      -(d1fn K T r sigma S - sigma * Real.sqrt T) ^ 2 / 2) =
      K * Real.exp (-r * T) *
        Real.exp (-(d1fn K T r sigma S - sigma * Real.sqrt T) ^ 2 / 2) := by
    rw [Real.exp_add, Real.exp_add, Real.exp_log hK]
  unfold gaussPdf
  calc S * ((Real.sqrt (2 * Real.pi))⁻¹ * Real.exp (-(d1fn K T r sigma S) ^ 2 / 2))
      = (Real.sqrt (2 * Real.pi))⁻¹ *
          Real.exp (Real.log S + -(d1fn K T r sigma S) ^ 2 / 2) := by
        rw [hSe]
        ring
  _ = (Real.sqrt (2 * Real.pi))⁻¹ * Real.exp (Real.log K + (-r * T) +
        -(d1fn K T r sigma S - sigma * Real.sqrt T) ^ 2 / 2) := by rw [key]
  _ = K * Real.exp (-r * T) *
        ((Real.sqrt (2 * Real.pi))⁻¹ *
          Real.exp (-(d1fn K T r sigma S - sigma * Real.sqrt T) ^ 2 / 2)) := by
        rw [hKe]
        ring

/-- Derivative of `d1` in the spot variable. -/
lemma hasDerivAt_d1fn_S (K T r sigma S : ℝ)
    (hS : 0 < S) (hK : 0 < K) (hT : 0 < T) (hsig : 0 < sigma) :
    HasDerivAt (fun s => d1fn K T r sigma s) (1 / (S * (sigma * Real.sqrt T))) S := by
  have hsT : (0 : ℝ) < Real.sqrt T := Real.sqrt_pos.mpr hT
  have hdiv : HasDerivAt (fun s : ℝ => s / K) (1 / K) S := by
    simpa using (hasDerivAt_id S).div_const K
  have hlog : HasDerivAt (fun s : ℝ => Real.log (s / K)) ((S / K)⁻¹ * (1 / K)) S :=
    (Real.hasDerivAt_log (ne_of_gt (by positivity))).comp S hdiv
  have h1 : HasDerivAt
      (fun s : ℝ => Real.log (s / K) + (r + 0.5 * sigma * sigma) * T)
      ((S / K)⁻¹ * (1 / K)) S := hlog.add_const _
  have h2 := h1.div_const (sigma * Real.sqrt T)
  unfold d1fn
  convert h2 using 1
  field_simp
  ring

/-- Derivative of the analytic call price in the spot: the delta `Φ(d1)`. -/
lemma hasDerivAt_bsCallFn_S (K T r sigma S : ℝ)
    (hS : 0 < S) (hK : 0 < K) (hT : 0 < T) (hsig : 0 < sigma) :
    HasDerivAt (fun s => bsCallFn K T r sigma s)
      (norm_cdf (d1fn K T r sigma S)) S := by
  have hd1 := hasDerivAt_d1fn_S K T r sigma S hS hK hT hsig
  have hd2 : HasDerivAt (fun s => d1fn K T r sigma s - sigma * Real.sqrt T)
      (1 / (S * (sigma * Real.sqrt T))) S := hd1.sub_const _
  have hn1 : HasDerivAt (fun s => norm_cdf (d1fn K T r sigma s))
      (gaussPdf (d1fn K T r sigma S) * (1 / (S * (sigma * Real.sqrt T)))) S :=
    (hasDerivAt_norm_cdf _).comp S hd1
  have hn2 : HasDerivAt
      (fun s => norm_cdf (d1fn K T r sigma s - sigma * Real.sqrt T))
      (gaussPdf (d1fn K T r sigma S - sigma * Real.sqrt T) *
        (1 / (S * (sigma * Real.sqrt T)))) S :=
    (hasDerivAt_norm_cdf _).comp S hd2
  have hmul : HasDerivAt (fun s => s * norm_cdf (d1fn K T r sigma s))
      (1 * norm_cdf (d1fn K T r sigma S) +
        S * (gaussPdf (d1fn K T r sigma S) * (1 / (S * (sigma * Real.sqrt T))))) S :=
    (hasDerivAt_id S).mul hn1
  have hkterm : HasDerivAt
      (fun s => K * Real.exp (-r * T) *
        norm_cdf (d1fn K T r sigma s - sigma * Real.sqrt T))
      (K * Real.exp (-r * T) *
        (gaussPdf (d1fn K T r sigma S - sigma * Real.sqrt T) *
          (1 / (S * (sigma * Real.sqrt T))))) S := hn2.const_mul _
  have htot := hmul.sub hkterm
  have hfn : bsCallFn K T r sigma = fun s => s * norm_cdf (d1fn K T r sigma s) -
      K * Real.exp (-r * T) * norm_cdf (d1fn K T r sigma s - sigma * Real.sqrt T) := rfl
  rw [hfn]
  convert htot using 1
  have hid := bs_pdf_identity S K T r sigma hS hK hT hsig
  linear_combination (-(1 / (S * (sigma * Real.sqrt T)))) * hid

/-- The analytic call price is non-decreasing in the spot on `(0, ∞)`. -/
lemma bsCallFn_monotoneOn_S (K T r sigma : ℝ)
    (hK : 0 < K) (hT : 0 < T) (hsig : 0 < sigma) :
    MonotoneOn (fun s => bsCallFn K T r sigma s) (Set.Ioi (0 : ℝ)) := by
  apply monotoneOn_of_deriv_nonneg (convex_Ioi 0)
  · intro s hs
    exact ((hasDerivAt_bsCallFn_S K T r sigma s hs hK hT
      hsig).differentiableAt).continuousAt.continuousWithinAt
  · intro s hs
    rw [interior_Ioi] at hs
    exact ((hasDerivAt_bsCallFn_S K T r sigma s hs hK hT
      hsig).differentiableAt).differentiableWithinAt
  · intro s hs
    rw [interior_Ioi] at hs
    rw [(hasDerivAt_bsCallFn_S K T r sigma s hs hK hT hsig).deriv]
    exact norm_cdf_nonneg _

/-- The spot minus the analytic call price is non-decreasing in the spot
(the delta is at most one). -/
lemma sub_bsCallFn_monotoneOn_S (K T r sigma : ℝ)
    (hK : 0 < K) (hT : 0 < T) (hsig : 0 < sigma) :
    MonotoneOn (fun s => s - bsCallFn K T r sigma s) (Set.Ioi (0 : ℝ)) := by
  have hder : ∀ s : ℝ, 0 < s → HasDerivAt (fun x : ℝ => x - bsCallFn K T r sigma x)
      (1 - norm_cdf (d1fn K T r sigma s)) s := by
    intro s hs
    have hid' : HasDerivAt (fun x : ℝ => x) 1 s := hasDerivAt_id s
    exact hid'.sub (hasDerivAt_bsCallFn_S K T r sigma s hs hK hT hsig)
  apply monotoneOn_of_deriv_nonneg (convex_Ioi 0)
  · intro s hs
    exact ((hder s hs).differentiableAt).continuousAt.continuousWithinAt
  · intro s hs
    rw [interior_Ioi] at hs
    exact ((hder s hs).differentiableAt).differentiableWithinAt
  · intro s hs
    rw [interior_Ioi] at hs
    rw [(hder s hs).deriv]
    have := norm_cdf_le_one (d1fn K T r sigma s)
    linarith

/-- Put-call parity at the level of the pricing functions. -/
lemma bsPutFn_eq_parity (K T r sigma s : ℝ) :
    bsPutFn K T r sigma s = bsCallFn K T r sigma s - s + K * Real.exp (-r * T) := by
  unfold bsPutFn bsCallFn
  have h1 := norm_cdf_add_neg (d1fn K T r sigma s)
  have h2 := norm_cdf_add_neg (d1fn K T r sigma s - sigma * Real.sqrt T)
  linear_combination K * Real.exp (-r * T) * h2 - s * h1

/-- Derivatives in the volatility of `d1` and `d2` differ by `√T`. -/
lemma hasDerivAt_d1fn_sigma_pair (K T r S sigma : ℝ)
    (hT : 0 < T) (hsig : 0 < sigma) :
    ∃ q : ℝ, HasDerivAt (fun sig => d1fn K T r sig S) q sigma ∧
      HasDerivAt (fun sig => d1fn K T r sig S - sig * Real.sqrt T)
        (q - Real.sqrt T) sigma := by
  have hsT : (0 : ℝ) < Real.sqrt T := Real.sqrt_pos.mpr hT
  have hD : HasDerivAt (fun sig : ℝ => sig * Real.sqrt T) (1 * Real.sqrt T) sigma :=
    (hasDerivAt_id sigma).mul_const (Real.sqrt T)
  have h05 : HasDerivAt (fun sig : ℝ => 0.5 * sig) (0.5 * 1) sigma :=
    (hasDerivAt_id sigma).const_mul 0.5
  have hsq : HasDerivAt (fun sig : ℝ => 0.5 * sig * sig)
      (0.5 * 1 * sigma + 0.5 * sigma * 1) sigma := h05.mul (hasDerivAt_id sigma)
  have hnum : HasDerivAt
      (fun sig : ℝ => Real.log (S / K) + (r + 0.5 * sig * sig) * T)
      ((0.5 * 1 * sigma + 0.5 * sigma * 1) * T) sigma := by
    have h1 : HasDerivAt (fun sig : ℝ => r + 0.5 * sig * sig)
        (0.5 * 1 * sigma + 0.5 * sigma * 1) sigma := hsq.const_add r
    have h2 := h1.mul_const T
    exact h2.const_add _
  have hdne : sigma * Real.sqrt T ≠ 0 := ne_of_gt (by positivity)
  have hdiv := hnum.div hD hdne
  refine ⟨_, hdiv, ?_⟩
  have hsub := hdiv.sub hD
  convert hsub using 1
  ring

/-- Derivative of the analytic call price in the volatility: the vega
`S·φ(d1)·√T`, which is non-negative. -/
lemma hasDerivAt_bsCallFn_sigma (K T r S sigma : ℝ)
    (hS : 0 < S) (hK : 0 < K) (hT : 0 < T) (hsig : 0 < sigma) :
    HasDerivAt (fun sig => bsCallFn K T r sig S)
      (S * gaussPdf (d1fn K T r sigma S) * Real.sqrt T) sigma := by
  obtain ⟨q, hq1, hq2⟩ := hasDerivAt_d1fn_sigma_pair K T r S sigma hT hsig
  have hn1 : HasDerivAt (fun sig => norm_cdf (d1fn K T r sig S))
      (gaussPdf (d1fn K T r sigma S) * q) sigma :=
    (hasDerivAt_norm_cdf _).comp sigma hq1
  have hn2 : HasDerivAt
      (fun sig => norm_cdf (d1fn K T r sig S - sig * Real.sqrt T))
      (gaussPdf (d1fn K T r sigma S - sigma * Real.sqrt T) * (q - Real.sqrt T)) sigma :=
    (hasDerivAt_norm_cdf _).comp sigma hq2
  have hterm1 := hn1.const_mul S
  have hterm2 := hn2.const_mul (K * Real.exp (-r * T))
  have htot := hterm1.sub hterm2
  have hfn : (fun sig => bsCallFn K T r sig S) =
      fun sig => S * norm_cdf (d1fn K T r sig S) -
        K * Real.exp (-r * T) *
          norm_cdf (d1fn K T r sig S - sig * Real.sqrt T) := rfl
  rw [hfn]
  convert htot using 1
  have hid := bs_pdf_identity S K T r sigma hS hK hT hsig
  linear_combination (Real.sqrt T - q) * hid

/-- The analytic call price is non-decreasing in the volatility on `(0, ∞)`. -/
lemma bsCallFn_monotoneOn_sigma (K T r S : ℝ)
    (hS : 0 < S) (hK : 0 < K) (hT : 0 < T) :
    MonotoneOn (fun sig => bsCallFn K T r sig S) (Set.Ioi (0 : ℝ)) := by
  apply monotoneOn_of_deriv_nonneg (convex_Ioi 0)
  · intro sig hs
    exact ((hasDerivAt_bsCallFn_sigma K T r S sig hS hK hT
      hs).differentiableAt).continuousAt.continuousWithinAt
  · intro sig hs
    rw [interior_Ioi] at hs
    exact ((hasDerivAt_bsCallFn_sigma K T r S sig hS hK hT
      hs).differentiableAt).differentiableWithinAt
  · intro sig hs
    rw [interior_Ioi] at hs
    rw [(hasDerivAt_bsCallFn_sigma K T r S sig hS hK hT hs).deriv]
    exact mul_nonneg (mul_nonneg hS.le (gaussPdf_pos _).le) (Real.sqrt_nonneg T)

/-- C8 amended: monotonicity as it actually holds in the code. For the
Analytic Pricer (S, K, T, σ > 0): the call price is non-decreasing and the
put price non-increasing in S, and both are non-decreasing in σ. For the
Simulation Pricer, with identical draws, the call price is non-decreasing
and the put price non-increasing in S; its σ-monotonicity fails pathwise.
For the Lattice Pricer, monotonicity in S (call up, put down) holds
provided the computed probability p lies in [0, 1]; without that proviso,
and in σ, it fails. -/
theorem monotonicity_amended :
    (∀ S₁ S₂ K T r sigma : ℝ, 0 < S₁ → S₁ ≤ S₂ → 0 < K → 0 < T → 0 < sigma →
      BlackScholesModel.price (EuropeanOption.mk S₁ K T r sigma OptionType.Call) ≤
        BlackScholesModel.price (EuropeanOption.mk S₂ K T r sigma OptionType.Call)) ∧
    (∀ S₁ S₂ K T r sigma : ℝ, 0 < S₁ → S₁ ≤ S₂ → 0 < K → 0 < T → 0 < sigma →
      BlackScholesModel.price (EuropeanOption.mk S₂ K T r sigma OptionType.Put) ≤
        BlackScholesModel.price (EuropeanOption.mk S₁ K T r sigma OptionType.Put)) ∧
    (∀ S K T r sig₁ sig₂ : ℝ, 0 < S → 0 < K → 0 < T → 0 < sig₁ → sig₁ ≤ sig₂ →
      BlackScholesModel.price (EuropeanOption.mk S K T r sig₁ OptionType.Call) ≤
        BlackScholesModel.price (EuropeanOption.mk S K T r sig₂ OptionType.Call)) ∧
    (∀ S K T r sig₁ sig₂ : ℝ, 0 < S → 0 < K → 0 < T → 0 < sig₁ → sig₁ ≤ sig₂ →
      BlackScholesModel.price (EuropeanOption.mk S K T r sig₁ OptionType.Put) ≤
        BlackScholesModel.price (EuropeanOption.mk S K T r sig₂ OptionType.Put)) ∧
    (∀ (S₁ S₂ K T r sigma : ℝ) (Z : ℕ → ℝ) (n : ℤ), S₁ ≤ S₂ → 0 < n →
      (MonteCarloModel.mk n).price (EuropeanOption.mk S₁ K T r sigma OptionType.Call) Z ≤
        (MonteCarloModel.mk n).price (EuropeanOption.mk S₂ K T r sigma OptionType.Call) Z) ∧
    (∀ (S₁ S₂ K T r sigma : ℝ) (Z : ℕ → ℝ) (n : ℤ), S₁ ≤ S₂ → 0 < n →
      (MonteCarloModel.mk n).price (EuropeanOption.mk S₂ K T r sigma OptionType.Put) Z ≤
        (MonteCarloModel.mk n).price (EuropeanOption.mk S₁ K T r sigma OptionType.Put) Z) ∧
    (∀ (S₁ S₂ K T r sigma : ℝ) (n : ℕ), S₁ ≤ S₂ →
      ((Real.exp (r * (T / (n : ℝ))) -
          1 / Real.exp (sigma * Real.sqrt (T / (n : ℝ)))) /
        (Real.exp (sigma * Real.sqrt (T / (n : ℝ))) -
          1 / Real.exp (sigma * Real.sqrt (T / (n : ℝ))))) ∈ Set.Icc (0 : ℝ) 1 →
      (BinomialModel.mk (n : ℤ)).price (EuropeanOption.mk S₁ K T r sigma OptionType.Call) ≤
        (BinomialModel.mk (n : ℤ)).price (EuropeanOption.mk S₂ K T r sigma OptionType.Call)) ∧
    (∀ (S₁ S₂ K T r sigma : ℝ) (n : ℕ), S₁ ≤ S₂ →
      ((Real.exp (r * (T / (n : ℝ))) -
          1 / Real.exp (sigma * Real.sqrt (T / (n : ℝ)))) /
        (Real.exp (sigma * Real.sqrt (T / (n : ℝ))) -
          1 / Real.exp (sigma * Real.sqrt (T / (n : ℝ))))) ∈ Set.Icc (0 : ℝ) 1 →
      (BinomialModel.mk (n : ℤ)).price (EuropeanOption.mk S₂ K T r sigma OptionType.Put) ≤
        (BinomialModel.mk (n : ℤ)).price (EuropeanOption.mk S₁ K T r sigma OptionType.Put)) := by
  refine ⟨?_, ?_, ?_, ?_, ?_, ?_, ?_, ?_⟩
  · intro S₁ S₂ K T r sigma hS1 h12 hK hT hsig
    rw [price_call_eq_fn, price_call_eq_fn]
    exact bsCallFn_monotoneOn_S K T r sigma hK hT hsig (Set.mem_Ioi.mpr hS1)
      (Set.mem_Ioi.mpr (lt_of_lt_of_le hS1 h12)) h12
  · intro S₁ S₂ K T r sigma hS1 h12 hK hT hsig
    have hm := sub_bsCallFn_monotoneOn_S K T r sigma hK hT hsig (Set.mem_Ioi.mpr hS1)
      (Set.mem_Ioi.mpr (lt_of_lt_of_le hS1 h12)) h12
    rw [price_put_eq_fn, price_put_eq_fn, bsPutFn_eq_parity, bsPutFn_eq_parity]
    simp only at hm
    linarith
  · intro S K T r sig₁ sig₂ hS hK hT hsig1 hsig12
    rw [price_call_eq_fn, price_call_eq_fn]
    exact bsCallFn_monotoneOn_sigma K T r S hS hK hT (Set.mem_Ioi.mpr hsig1)
      (Set.mem_Ioi.mpr (lt_of_lt_of_le hsig1 hsig12)) hsig12
  · intro S K T r sig₁ sig₂ hS hK hT hsig1 hsig12
    have hm := bsCallFn_monotoneOn_sigma K T r S hS hK hT (Set.mem_Ioi.mpr hsig1)
      (Set.mem_Ioi.mpr (lt_of_lt_of_le hsig1 hsig12)) hsig12
    rw [price_put_eq_fn, price_put_eq_fn, bsPutFn_eq_parity, bsPutFn_eq_parity]
    simp only at hm
    linarith
  · intro S₁ S₂ K T r sigma Z n h12 hn
    exact mc_price_mono_of_sum _ _ Z n hn rfl rfl
      (mc_call_payoff_mono S₁ S₂ K T r sigma h12)
  · intro S₁ S₂ K T r sigma Z n h12 hn
    exact mc_price_mono_of_sum _ _ Z n hn rfl rfl
      (mc_put_payoff_anti S₁ S₂ K T r sigma h12)
  · intro S₁ S₂ K T r sigma n h12 hp
    exact binomial_call_mono_S S₁ S₂ K T r sigma n h12 hp
  · intro S₁ S₂ K T r sigma n h12 hp
    exact binomial_put_anti_S S₁ S₂ K T r sigma n h12 hp

/-- Witness for the amended C8 at concrete inputs, including a concrete
instance with `p ∈ [0, 1]` for the lattice part. -/
theorem monotonicity_amended_witness :
    ((0 : ℝ) < 1 ∧ (1 : ℝ) ≤ 2 ∧
      BlackScholesModel.price (EuropeanOption.mk 1 1 1 0 1 OptionType.Call) ≤
        BlackScholesModel.price (EuropeanOption.mk 2 1 1 0 1 OptionType.Call)) ∧
    (((Real.exp (0 * ((1 : ℝ) / ((1 : ℕ) : ℝ))) -
        1 / Real.exp (1/8 * Real.sqrt ((1 : ℝ) / ((1 : ℕ) : ℝ)))) /
      (Real.exp (1/8 * Real.sqrt ((1 : ℝ) / ((1 : ℕ) : ℝ))) -
        1 / Real.exp (1/8 * Real.sqrt ((1 : ℝ) / ((1 : ℕ) : ℝ))))) ∈ Set.Icc (0 : ℝ) 1 ∧
      (BinomialModel.mk ((1 : ℕ) : ℤ)).price
          (EuropeanOption.mk 1 1 1 0 (1/8) OptionType.Call) ≤
        (BinomialModel.mk ((1 : ℕ) : ℤ)).price
          (EuropeanOption.mk 2 1 1 0 (1/8) OptionType.Call)) := by
  have ht1 : (1 : ℝ) < Real.exp (1 / 8) := lt_trans (by norm_num) exp_eighth_gt
  have htpos : (0 : ℝ) < Real.exp (1 / 8) := Real.exp_pos _
  have htinv : (Real.exp (1 / 8))⁻¹ < 1 := by
    rw [inv_lt_one_iff₀]
    right
    exact ht1
  have htinvpos : (0 : ℝ) < (Real.exp (1 / 8))⁻¹ := by positivity
  have hden : (0 : ℝ) < Real.exp (1 / 8) - (Real.exp (1 / 8))⁻¹ := by linarith
  have hp : ((Real.exp (0 * ((1 : ℝ) / ((1 : ℕ) : ℝ))) -
      1 / Real.exp (1/8 * Real.sqrt ((1 : ℝ) / ((1 : ℕ) : ℝ)))) /
    (Real.exp (1/8 * Real.sqrt ((1 : ℝ) / ((1 : ℕ) : ℝ))) -
      1 / Real.exp (1/8 * Real.sqrt ((1 : ℝ) / ((1 : ℕ) : ℝ))))) ∈ Set.Icc (0 : ℝ) 1 := by
    norm_num [Real.sqrt_one, Set.mem_Icc]
    constructor
    · apply div_nonneg _ hden.le
      linarith
    · rw [div_le_one hden]
      linarith
  exact ⟨⟨by norm_num, by norm_num,
      monotonicity_amended.1 1 2 1 1 0 1 (by norm_num) (by norm_num) (by norm_num)
        (by norm_num) (by norm_num)⟩,
    ⟨hp, (monotonicity_amended.2.2.2.2.2.2.1) 1 2 1 1 0 (1/8) 1 (by norm_num) hp⟩⟩
